import Mathlib

/-!
Verification of the PyRate correction-and-estimation pipeline core
(`pyrate/vcm.py` and `pyrate/scripts/run_pyrate.py`).

The Python source is shallowly embedded: interferogram metadata snapshots
become a `PrereadIfg` structure, flattened rasters become lists of rationals
(every IEEE float value is a rational), real-valued spectral quantities become
real numbers, and the MPI orchestration becomes explicit rank-indexed
functions.  Functions of external modules that the two source files call but
that are not part of the two files (`algorithm.master_slave_ids`,
`mpiops.array_split`, `algorithm.get_epochs`, `rpe.check_ref_phs_ifgs`,
`shared.nan_and_mm_convert`, `Ifg.write_modified_phase`) are modelled from the
specification, and each such definition is marked `Modelled from the spec:`.
-/

namespace PyRate

/-! ## Data model -/

/-- Immutable per-interferogram snapshot (`pyrate.shared.PrereadIfg`):
`{path, nan_fraction, master, slave, time_span, nrows, ncols, metadata}`.
Epoch dates are encoded as naturals; only their equality and order are used. -/
structure PrereadIfg where
  path : String
  nan_fraction : ℚ
  master : ℕ
  slave : ℕ
  time_span : ℚ
  nrows : ℕ
  ncols : ℕ
  metadata : List (String × String)
deriving DecidableEq, Repr

instance : Inhabited PrereadIfg :=
  ⟨{ path := "", nan_fraction := 0, master := 0, slave := 0, time_span := 0,
     nrows := 0, ncols := 0, metadata := [] }⟩

/-- Convenience constructor for an interferogram snapshot holding only its
master and slave epochs (the only fields `get_vcmt` reads). -/
def mkIfg (m s : ℕ) : PrereadIfg :=
  { path := "", nan_fraction := 0, master := m, slave := s, time_span := 0,
    nrows := 0, ncols := 0, metadata := [] }

/-! ## Epoch id map and the temporal variance-covariance matrix (`vcm.py`) -/

/-- Modelled from the spec: `pyrate.algorithm.master_slave_ids` (not under
`src/`) — "mapping from a calendar date to a small dense integer, built once
from the concatenation of all master and slave dates across the interferogram
stack, sorted; used only for O(1) equality tests between epochs".  The dense
id of a date is its index in the sorted list of distinct dates.
(`List.insertionSort` plays the role of Python's stable `sorted`.) -/
def master_slave_ids (dates : List ℕ) : ℕ → ℕ :=
  fun d => (List.insertionSort (· ≤ ·) dates.dedup).indexOf d

/-- One entry of the structure-coefficient matrix `vcm_pat` built by
`get_vcmt` (`vcm.py` lines 248-260).  The three `if` statements of the source
are sequential overwrites, not an `if/elif` chain, so the later conditions
take precedence: `1.0` beats `-0.5` beats `0.5`. -/
def vcmPatEntry (ids : ℕ → ℕ) (a b : PrereadIfg) : ℝ :=
  let mas1 := ids a.master
  let slv1 := ids a.slave
  let mas2 := ids b.master
  let slv2 := ids b.slave
  let v : ℝ := 0
  let v : ℝ := if mas1 = mas2 ∨ slv1 = slv2 then 0.5 else v
  let v : ℝ := if mas1 = slv2 ∨ slv1 = mas2 then -0.5 else v
  let v : ℝ := if mas1 = mas2 ∧ slv1 = slv2 then 1 else v
  v

/-- The function `vcm.get_vcmt(ifgs, maxvar)` on a list of interferograms: the (i,j) entry
of the returned matrix, `sqrt(maxvar[i]) * sqrt(maxvar[j]) * vcm_pat[i,j]`
(`vcm.py` lines 242-265; `std * std.transpose() * vcm_pat` elementwise). -/
noncomputable def get_vcmt (ifgs : List PrereadIfg) (maxvar : List ℝ) :
    ℕ → ℕ → ℝ :=
  let dates := ifgs.map PrereadIfg.master ++ ifgs.map PrereadIfg.slave
  let ids := master_slave_ids dates
  fun i j =>
    Real.sqrt (maxvar.getD i 0) * Real.sqrt (maxvar.getD j 0) *
      vcmPatEntry ids (ifgs.getD i default) (ifgs.getD j default)

/-- The structure coefficient exactly as the specification words it: an
`if / else-if` chain in which `1.0` is tested first, then the shared-epoch
`0.5` case, then the anti-correlated `-0.5` case.  Stated over the epoch
dates themselves (the claim compares epochs, not dense ids). -/
def claimCEntry (a b : PrereadIfg) : ℝ :=
  if a.master = b.master ∧ a.slave = b.slave then 1
  else if a.master = b.master ∨ a.slave = b.slave then 0.5
  else if a.master = b.slave ∨ a.slave = b.master then -0.5
  else 0

/-- The (i,j) structure coefficient of the claim, read off a list of
interferograms. -/
def claimC (ifgs : List PrereadIfg) (i j : ℕ) : ℝ :=
  claimCEntry (ifgs.getD i default) (ifgs.getD j default)

/-! ## The covariance engine `cvd` (`vcm.py`): truncation, radial filter,
maxvar, and the exponential-decay fit -/

/-- The value `int(ceil(n/2.0))` for a natural `n` (`vcm.py` line 129). -/
def ceilHalf (n : ℕ) : ℕ := (n + 1) / 2

/-- The maximum `np.max` of a list: fold of `max` (the source errors on an empty array;
the default `d` stands in for that case and the theorems avoid it). -/
def npMax {α : Type} [LinearOrder α] (d : α) (l : List α) : α :=
  l.foldl max (l.headD d)

/-- The truncation step of `cvd` (`vcm.py` lines 129-130): keep only the
first `int(ceil(num_cells/2.0)) + nrows` elements of the flattened (raster
scan order) radial-distance array, and cut the autocorrelation array to the
same length. -/
def cvdTruncate (r_dist acg : List ℚ) (num_cells nrows : ℕ) :
    List ℚ × List ℚ :=
  let r := r_dist.take (ceilHalf num_cells + nrows)
  (r, acg.take r.length)

/-- The cutoff `maxdist` (`vcm.py` lines 145-148): the radius of the largest circle
inscribed in the raster extent — the smaller of `x_centre*x_size` and
`y_centre*y_size` — divided by the km conversion factor 1000. -/
def maxdist (x_centre x_size y_centre y_size : ℚ) : ℚ :=
  if x_centre * x_size < y_centre * y_size then x_centre * x_size / 1000
  else y_centre * y_size / 1000

/-- The radial filter of `cvd` (`vcm.py` lines 154-156) applied to the
truncated arrays: keep exactly the (distance, autocorrelation) pairs with
`r_dist < maxdist` — strict, so points at exactly the inscribed radius are
discarded as well. -/
def cvdSurvivors (r_dist acg : List ℚ) (num_cells nrows : ℕ)
    (x_centre x_size y_centre y_size : ℚ) : List (ℚ × ℚ) :=
  let t := cvdTruncate r_dist acg num_cells nrows
  (t.1.zip t.2).filter
    (fun p => p.1 < maxdist x_centre x_size y_centre y_size)

/-- The scalar `maxvar = np.max(acg)` over the surviving points (`vcm.py` line 162). -/
def cvdMaxvar (r_dist acg : List ℚ) (num_cells nrows : ℕ)
    (x_centre x_size y_centre y_size : ℚ) : ℚ :=
  npMax 0 ((cvdSurvivors r_dist acg num_cells nrows
    x_centre x_size y_centre y_size).map Prod.snd)

/-- The radial filter as the claim words it: only points strictly beyond the
inscribed radius are discarded, so the survivors are the pairs with
`r_dist ≤ maxdist` (boundary points included). -/
def claimSurvivors (r_dist acg : List ℚ) (num_cells nrows : ℕ)
    (x_centre x_size y_centre y_size : ℚ) : List (ℚ × ℚ) :=
  let t := cvdTruncate r_dist acg num_cells nrows
  (t.1.zip t.2).filter
    (fun p => p.1 ≤ maxdist x_centre x_size y_centre y_size)

/-- The maximum autocorrelation over the claim's survivor set. -/
def claimMaxvar (r_dist acg : List ℚ) (num_cells nrows : ℕ)
    (x_centre x_size y_centre y_size : ℚ) : ℚ :=
  npMax 0 ((claimSurvivors r_dist acg num_cells nrows
    x_centre x_size y_centre y_size).map Prod.snd)

/-- Euclidean norm of a vector held as a list (`numpy.linalg.norm`). -/
noncomputable def npNorm (l : List ℝ) : ℝ :=
  Real.sqrt ((l.map (fun x => x ^ 2)).sum)

/-- The objective `vcm.pendiffexp(alphamod, cvdav)` (`vcm.py` lines 40-55): the norm of
the residual `cvdav[1,:] - mx * exp(-alphamod * cvdav[0,:])`, where the
model amplitude `mx = cvdav[1,0]` is the first binned mean autocorrelation
("maxvar usually at zero lag").  `cvdav` is the pair (row 0 = bin
distances, row 1 = binned mean autocorrelations). -/
noncomputable def pendiffexp (alphamod : ℝ) (cvdav : List ℚ × List ℚ) : ℝ :=
  let mx : ℚ := cvdav.2.headD 0
  npNorm (List.zipWith
    (fun v r => (v : ℝ) - (mx : ℝ) * Real.exp (-alphamod * (r : ℝ)))
    cvdav.2 cvdav.1)

/-- The objective as the claim words it: the residual norm of the model
`maxvar * exp(-alpha * r)` with amplitude fixed at the computed `maxvar`
rather than at the first binned mean. -/
noncomputable def claimPendiffexp (mx : ℚ) (alphamod : ℝ)
    (cvdav : List ℚ × List ℚ) : ℝ :=
  npNorm (List.zipWith
    (fun v r => (v : ℝ) - (mx : ℝ) * Real.exp (-alphamod * (r : ℝ)))
    cvdav.2 cvdav.1)

/-- Bin width (`vcm.py` line 140): `max(x_size, y_size) * 2 / distfact`. -/
def binWidth (x_size y_size : ℚ) : ℚ := max x_size y_size * 2 / 1000

/-- Bin index of one distance (`vcm.py` line 166): `ceil(r_dist/bin_width)`. -/
def rbin (bw : ℚ) (r : ℚ) : ℤ := Int.ceil (r / bw)

/-- The bin count `maxbin = max(rbin)` (`vcm.py` line 167). -/
def maxbinOf (r_dist : List ℚ) (x_size y_size : ℚ) : ℤ :=
  npMax 0 (r_dist.map (rbin (binWidth x_size y_size)))

/-- Mean of a list (`numpy.mean`; an empty bin yields NaN in the source —
`0` stands in for it here and no theorem relies on empty bins). -/
def listMean (l : List ℚ) : ℚ := l.sum / l.length

/-- The binned-average array `cvdav` of `cvd`'s `calc_alpha` branch
(`vcm.py` lines 169-175): row 0 holds the bin distances `b * bin_width`
and row 1 the per-bin mean autocorrelations `mean(acg[rbin == b])`, for
`b` ranging over `range(maxbin)`. -/
def cvdavOf (acg r_dist : List ℚ) (x_size y_size : ℚ) :
    List ℚ × List ℚ :=
  let bw := binWidth x_size y_size
  let bins := r_dist.map (rbin bw)
  let maxbin := (npMax 0 bins).toNat
  ((List.range maxbin).map (fun (b : ℕ) => ((b : ℚ) * bw : ℚ)),
   (List.range maxbin).map (fun (b : ℕ) =>
     listMean (((bins.zip acg).filter (fun p => p.1 = ((b : ℕ) : ℤ))).map
       Prod.snd)))

/-- The closed-form initial guess (`vcm.py` line 178):
`alphaguess = 2 / (maxbin * bin_width)`. -/
def alphaguess (r_dist : List ℚ) (x_size y_size : ℚ) : ℚ :=
  2 / ((maxbinOf r_dist x_size y_size : ℚ) * binWidth x_size y_size)

/-- The `calc_alpha` branch of `cvd` (`vcm.py` lines 164-182), parameterised
by the external numerical minimiser (`scipy.optimize.fmin`, outside the two
source files): the fitted alpha is the minimiser applied to the objective
`fun a => pendiffexp a cvdav`, seeded at `alphaguess`. -/
noncomputable def cvdCalcAlpha (fminImpl : (ℝ → ℝ) → ℝ → ℝ)
    (acg r_dist : List ℚ) (x_size y_size : ℚ) : ℝ :=
  fminImpl (fun a => pendiffexp a (cvdavOf acg r_dist x_size y_size))
    ((alphaguess r_dist x_size y_size : ℚ) : ℝ)

/-! ## Interferogram state and the frame effect of `cvd` -/

/-- Association-list dictionary update with Python `dict` semantics for
lookups: the key's previous binding is removed and the new binding
appended, so a fresh key lands at the end and `dictLookup` behaves exactly
like a Python `dict` subscript. -/
def dictInsert {β : Type} (d : List (String × β)) (k : String) (v : β) :
    List (String × β) :=
  (d.filter (fun kv => kv.1 ≠ k)) ++ [(k, v)]

/-- Python `dict` lookup on the association-list representation. -/
def dictLookup {β : Type} (d : List (String × β)) (k : String) : Option β :=
  (d.find? (fun kv => kv.1 = k)).map Prod.snd

/-- Modelled from the spec: the metadata key for maxvar
(`ifgconstants.PYRATE_MAXVAR`, not under `src/`). -/
def PYRATE_MAXVAR : String := "MAXVAR"

/-- Modelled from the spec: the metadata key for alpha
(`ifgconstants.PYRATE_ALPHA`, not under `src/`). -/
def PYRATE_ALPHA : String := "ALPHA"

/-- Modelled from the spec: the reference-phase status metadata key
(`ifgconstants.PYRATE_REF_PHASE`, not under `src/`). -/
def PYRATE_REF_PHASE : String := "REF_PHASE"

/-- Modelled from the spec: the marker value recording that the reference
phase has been removed (`ifgconstants.REF_PHASE_REMOVED`, not under
`src/`). -/
def REF_PHASE_REMOVED : String := "REF_PHASE_REMOVED"

/-- Mutable interferogram state as `cvd` sees it: the flattened phase
raster (a cell is `none` once converted to NaN), the metadata map, the two
conversion flags, and the backing-store write marker. -/
structure IfgState where
  phase : List (Option ℚ)
  metadata : List (String × String)
  nanConverted : Bool
  mmConverted : Bool
  writeMarker : Bool
deriving DecidableEq, Repr

/-- Modelled from the spec: `shared.nan_and_mm_convert(ifg, params)` (not
under `src/`) — "Convert phase to displacement units": if nan conversion is
requested and has not run yet, cells holding the no-data value become NaN;
if the phase is not yet in millimetres, every cell is scaled by the
radians-to-millimetre factor; each step records that it ran and is skipped
on re-entry, so the conversion is idempotent. -/
def nan_and_mm_convert (nanConversion : Bool) (nodata mmFactor : ℚ)
    (ifg : IfgState) : IfgState :=
  let i1 :=
    if nanConversion && !ifg.nanConverted then
      { ifg with
        phase := ifg.phase.map (fun c => if c = some nodata then none else c),
        nanConverted := true }
    else ifg
  if !i1.mmConverted then
    { i1 with
      phase := i1.phase.map (fun c => c.map (fun q => q * mmFactor)),
      mmConverted := true }
  else i1

/-- The helper `vcm._add_metadata(ifg, maxvar, alpha)` (`vcm.py` lines 195-202): set
the two metadata keys to the stringified scalars, then write the phase back
(`Ifg.write_modified_phase`, not under `src/`, is modelled from the spec as
setting only the backing-store write marker and leaving the phase values
as given). -/
def add_metadata (ifg : IfgState) (maxvar alpha : ℚ) : IfgState :=
  { ifg with
    metadata := dictInsert (dictInsert ifg.metadata PYRATE_MAXVAR
      (toString maxvar)) PYRATE_ALPHA (toString alpha),
    writeMarker := true }

/-- The frame effect of `cvd(ifg, params, calc_alpha, write_vals)` on the
interferogram state (`vcm.py` lines 66-192): `nan_and_mm_convert` runs
unconditionally (line 91); the spectral computation reads a local copy of
the phase (line 94 builds `phase` as a new array); iff `write_vals`, the
two metadata keys are set and the phase is written back (lines 187-188).
The computed scalars are parameters — their values do not affect the
frame. -/
def cvd_effect (nanConversion : Bool) (nodata mmFactor : ℚ)
    (maxvar alpha : ℚ) (write_vals : Bool) (ifg : IfgState) : IfgState :=
  let ifg1 := nan_and_mm_convert nanConversion nodata mmFactor ifg
  if write_vals then add_metadata ifg1 maxvar alpha else ifg1

/-- A concrete raw (unconverted) interferogram state with one nonzero
phase cell. -/
def rawIfg : IfgState :=
  { phase := [some 1], metadata := [], nanConverted := false,
    mmConverted := false, writeMarker := false }

/-- A concrete already-converted interferogram state. -/
def convIfg : IfgState :=
  { phase := [some 2, none], metadata := [("X", "y")], nanConverted := true,
    mmConverted := true, writeMarker := false }

/-! ## Reference pixel decision (`run_pyrate.ref_pixel_calc`) -/

/-- Outcome of the reference-pixel decision: one of the two `ValueError`
raises, the search branch, or reuse of the supplied coordinate. -/
inductive RefPixelOutcome where
  | fatalX
  | fatalY
  | search
  | reuse (refx refy : ℤ)
deriving DecidableEq, Repr

/-- The setup `run_pyrate.ref_pixel_calc(ifg_paths, params)` (lines 169-204) as a
decision on the supplied coordinate and the first interferogram's raster
shape: raise if `refx > ifg.ncols - 1`; else raise if
`refy > ifg.nrows - 1`; else run the search if `refx <= 0 or refy <= 0`
("if either zero or negative"); else reuse the supplied coordinate.  The
search itself (`find_ref_pixel`) is external to this decision. -/
def ref_pixel_calc (refx refy : ℤ) (nrows ncols : ℕ) : RefPixelOutcome :=
  if refx > (ncols : ℤ) - 1 then RefPixelOutcome.fatalX
  else if refy > (nrows : ℤ) - 1 then RefPixelOutcome.fatalY
  else if refx ≤ 0 ∨ refy ≤ 0 then RefPixelOutcome.search
  else RefPixelOutcome.reuse refx refy

/-- A supplied coordinate is in bounds when `refx` is a valid column index
and `refy` a valid row index. -/
def inBounds (refx refy : ℤ) (nrows ncols : ℕ) : Prop :=
  0 ≤ refx ∧ refx ≤ (ncols : ℤ) - 1 ∧ 0 ≤ refy ∧ refy ≤ (nrows : ℤ) - 1

instance (refx refy : ℤ) (nrows ncols : ℕ) :
    Decidable (inBounds refx refy nrows ncols) := by
  unfold inBounds; infer_instance

/-! ## Reference-phase estimation skip rule (`run_pyrate.py` lines 295-299) -/

/-- Modelled from the spec: `rpe.check_ref_phs_ifgs(ifg_paths, preread_ifgs)`
(not under `src/`) — true iff every interferogram's metadata already marks
the reference phase as removed. -/
def check_ref_phs_ifgs (reg : List (String × PrereadIfg)) : Bool :=
  reg.all (fun kv =>
    dictLookup kv.2.metadata PYRATE_REF_PHASE = some REF_PHASE_REMOVED)

/-- The skip decision of `ref_phase_estimation` (`run_pyrate.py` lines
295-299): the early `return` is taken only when a (truthy, i.e. nonempty)
preread registry was passed AND the calling rank is the master AND the
check passes; any other rank falls through to the stage body.  `true`
means the body (reference-phase computation, in-place interferogram
correction and rewrite, gather) executes on this rank. -/
def ref_phase_estimation_runs (rank : ℕ)
    (preread : Option (List (String × PrereadIfg))) : Bool :=
  match preread with
  | none => true
  | some reg => !(decide (reg ≠ []) && decide (rank = 0)
      && check_ref_phs_ifgs reg)

/-- A concrete two-interferogram registry in which both entries are marked
reference-phase-removed. -/
def markedIfg (p : String) (m s : ℕ) : PrereadIfg :=
  { path := p, nan_fraction := 0, master := m, slave := s, time_span := 0,
    nrows := 0, ncols := 0,
    metadata := [(PYRATE_REF_PHASE, REF_PHASE_REMOVED)] }

/-- The registry holding the two marked interferograms. -/
def markedReg : List (String × PrereadIfg) :=
  [("a", markedIfg "a" 1 2), ("b", markedIfg "b" 2 3)]

/-! ## The deterministic partition contract (`mpiops.array_split`) -/

/-- Modelled from the spec: the start index of rank `r`'s contiguous chunk
under the deterministic partition contract (`mpiops.array_split`, not under
`src/`, backed by `numpy.array_split`): the first `n % size` ranks receive
`n / size + 1` elements and the rest `n / size`, in order. -/
def splitStart (n size r : ℕ) : ℕ := r * (n / size) + min r (n % size)

/-- Modelled from the spec: the length of rank `r`'s chunk under the
deterministic partition contract. -/
def splitLen (n size r : ℕ) : ℕ := n / size + if r < n % size then 1 else 0

/-- Modelled from the spec: `mpiops.array_split(l, r)` — rank `r`'s
deterministic contiguous shard of an ordered collection. -/
def array_split {α : Type} (l : List α) (size r : ℕ) : List α :=
  (l.drop (splitStart l.length size r)).take (splitLen l.length size r)

/-! ## Preread registry construction (`run_pyrate.create_ifg_dict`) -/

/-- A value of the preread registry: a per-interferogram snapshot, or one
of the global entries added by the master — the epoch list (`epochlist`),
the geotransform (`gt`), the projection metadata (`md`) and the
well-known-text projection (`wkt`). -/
inductive RegVal where
  | pre (p : PrereadIfg)
  | epochs (es : List ℕ)
  | gtv (g : List ℚ)
  | mdv (m : List (String × String))
  | wktv (w : String)
deriving DecidableEq, Repr

/-- Whether a registry value is a `PrereadIfg` (Python's
`isinstance(v, PrereadIfg)`). -/
def RegVal.isPre : RegVal → Bool
  | pre _ => true
  | _ => false

/-- Extract the snapshot of a `PrereadIfg` registry value. -/
def RegVal.getPre : RegVal → PrereadIfg
  | pre p => p
  | _ => default

/-- The helper `run_pyrate._join_dicts(dicts)` (lines 69-80): the Python dict
comprehension `{k: v for D in dicts for k, v in D.items()}` — bindings
applied in order, later dictionaries winning on duplicate keys. -/
def join_dicts (dicts : List (List (String × RegVal))) :
    List (String × RegVal) :=
  dicts.foldl
    (fun acc d => d.foldl (fun acc2 kv => dictInsert acc2 kv.1 kv.2) acc) []

/-- Modelled from the spec: `algorithm.get_epochs` (not under `src/`) — the
epoch list of the stack: the sorted distinct acquisition dates (master and
slave) of all interferograms. -/
def get_epochs (prs : List PrereadIfg) : List ℕ :=
  List.insertionSort (· ≤ ·)
    (prs.map PrereadIfg.master ++ prs.map PrereadIfg.slave).dedup

/-- The builder `run_pyrate.create_ifg_dict(dest_tifs, params, tiles)` (lines 83-128):
each rank builds `PrereadIfg` entries for its `array_split` shard of paths;
the per-rank dictionaries are allgathered and joined; the master adds the
four global keys `epochlist`, `gt`, `md` and `wkt` (in that order) and
dumps the structure to disk once; after a barrier every rank reloads that
single dump, so the value returned on any rank is the master's dictionary
(`rank` does not influence the result).  The snapshot builder `mkPre`
(`prepare_ifg`) and the projection info (`get_projection_info`) are
external inputs. -/
def create_ifg_dict (rank : ℕ) (dest_tifs : List String) (size : ℕ)
    (mkPre : String → PrereadIfg) (gt : List ℚ)
    (md : List (String × String)) (wkt : String) :
    List (String × RegVal) :=
  let _ := rank
  let locals := (List.range size).map (fun r =>
    (array_split dest_tifs size r).map (fun d => (d, RegVal.pre (mkPre d))))
  let joined := join_dicts locals
  let pres := (joined.filter (fun kv => kv.2.isPre)).map
    (fun kv => kv.2.getPre)
  let d1 := dictInsert joined "epochlist" (RegVal.epochs (get_epochs pres))
  let d2 := dictInsert d1 "gt" (RegVal.gtv gt)
  let d3 := dictInsert d2 "md" (RegVal.mdv md)
  dictInsert d3 "wkt" (RegVal.wktv wkt)

/-! ## Reference-phase reassembly (`run_pyrate.ref_phase_estimation`) -/

/-- One placement step of the leader's reassembly loop (`run_pyrate.py`
lines 314-323): write rank `r`'s shard over the contiguous index block
`array_split(range(n), r)` that the deterministic partition assigns to
rank `r`, leaving every other index unchanged. -/
def placeShard (partials : ℕ → List ℝ) (n size : ℕ) (a : ℕ → ℝ) (r : ℕ) :
    ℕ → ℝ :=
  fun i =>
    if splitStart n size r ≤ i ∧ i < splitStart n size r + splitLen n size r
    then (partials r).getD (i - splitStart n size r) 0
    else a i

/-- The leader's reassembled full-length reference-phase array, starting
from `np.zeros(len(ifg_paths))` and placing the shards in the given
processing order.  The source processes ranks in ascending order; since
MPI `Recv` is keyed by `(source=r, tag=r)`, the value placed for rank `r`
is rank `r`'s shard regardless of arrival order, which the order list
abstracts. -/
def assembleRefPhs (partials : ℕ → List ℝ) (n size : ℕ)
    (order : List ℕ) : ℕ → ℝ :=
  order.foldl (placeShard partials n size) (fun _ => 0)

/-- Concrete per-rank partial corrections for two ranks over three
interferograms. -/
noncomputable def examplePartials : ℕ → List ℝ :=
  fun r => if r = 0 then [1, 2] else [3]

/-! ## The dictionary branch of `get_vcmt` (`vcm.py` lines 235-240) -/

/-- Comparison of registry items by their path key (Python's `sorted` on
`dict.items()`; keys are unique, so the tuple comparison never reaches the
values). -/
def byKey : (String × RegVal) → (String × RegVal) → Prop :=
  fun a b => a.1 ≤ b.1

instance : DecidableRel byKey :=
  fun a b => inferInstanceAs (Decidable (a.1 ≤ b.1))

instance : IsTotal (String × RegVal) byKey :=
  ⟨fun a b => le_total a.1 b.1⟩

instance : IsTrans (String × RegVal) byKey :=
  ⟨fun _ _ _ h h' => le_trans h h'⟩

/-- The dictionary branch of `get_vcmt` (`vcm.py` lines 235-240): drop
every entry whose value is not a `PrereadIfg`, then sort the remaining
items by key in ascending order. -/
def sortedPreItems (reg : List (String × RegVal)) :
    List (String × RegVal) :=
  List.insertionSort byKey (reg.filter (fun kv => kv.2.isPre))

/-- The function `get_vcmt` called on the preread registry dictionary: the matrix is
built from the `PrereadIfg` values in ascending sorted order of their path
keys. -/
noncomputable def get_vcmt_dict (reg : List (String × RegVal))
    (maxvar : List ℝ) : ℕ → ℕ → ℝ :=
  get_vcmt ((sortedPreItems reg).map (fun kv => kv.2.getPre)) maxvar

end PyRate

namespace PyRate

/-! ## Lemmas and theorems -/

theorem master_slave_ids_inj (dates : List ℕ) {d e : ℕ}
    (hd : d ∈ dates) (he : e ∈ dates) :
    master_slave_ids dates d = master_slave_ids dates e ↔ d = e := by
  have hmem : ∀ x : ℕ, x ∈ dates →
      x ∈ List.insertionSort (· ≤ ·) dates.dedup := by
    intro x hx
    have := (List.perm_insertionSort (· ≤ ·) dates.dedup).mem_iff (a := x)
    exact this.mpr (List.mem_dedup.mpr hx)
  exact List.indexOf_inj (hmem d hd) (hmem e he)

theorem vcmPatEntry_symm (ids : ℕ → ℕ) (a b : PrereadIfg) :
    vcmPatEntry ids a b = vcmPatEntry ids b a := by
  have h1 : (ids b.master = ids a.master ∨ ids b.slave = ids a.slave)
      = (ids a.master = ids b.master ∨ ids a.slave = ids b.slave) :=
    propext (by tauto)
  have h2 : (ids b.master = ids a.slave ∨ ids b.slave = ids a.master)
      = (ids a.master = ids b.slave ∨ ids a.slave = ids b.master) :=
    propext (by tauto)
  have h3 : (ids b.master = ids a.master ∧ ids b.slave = ids a.slave)
      = (ids a.master = ids b.master ∧ ids a.slave = ids b.slave) :=
    propext (by tauto)
  simp only [vcmPatEntry]
  exact (if_congr (iff_of_eq h3.symm) rfl
    (if_congr (iff_of_eq h2.symm) rfl
      (if_congr (iff_of_eq h1.symm) rfl rfl)))

theorem vcmPatEntry_eq_claimCEntry (dates : List ℕ) (a b : PrereadIfg)
    (hma : a.master ∈ dates) (hsa : a.slave ∈ dates)
    (hmb : b.master ∈ dates) (hsb : b.slave ∈ dates)
    (hna : a.master ≠ a.slave) (hnb : b.master ≠ b.slave) :
    vcmPatEntry (master_slave_ids dates) a b = claimCEntry a b := by
  have hmm := master_slave_ids_inj dates hma hmb
  have hss := master_slave_ids_inj dates hsa hsb
  have hms := master_slave_ids_inj dates hma hsb
  have hsm := master_slave_ids_inj dates hsa hmb
  simp only [vcmPatEntry, claimCEntry]
  by_cases hboth : a.master = b.master ∧ a.slave = b.slave
  · rw [if_pos ⟨hmm.mpr hboth.1, hss.mpr hboth.2⟩, if_pos hboth]
  · rw [if_neg (fun h => hboth ⟨hmm.mp h.1, hss.mp h.2⟩), if_neg hboth]
    by_cases hcross : a.master = b.slave ∨ a.slave = b.master
    · have hshare : ¬(a.master = b.master ∨ a.slave = b.slave) := by
        rcases hcross with h1 | h2
        · rintro (g1 | g2)
          · exact hnb (g1.symm.trans h1)
          · exact hna (h1.trans g2.symm)
        · rintro (g1 | g2)
          · exact hna (g1.trans h2.symm)
          · exact hnb (h2.symm.trans g2)
      rw [if_pos (hcross.imp hms.mpr hsm.mpr), if_neg hshare, if_pos hcross]
    · rw [if_neg (fun h => hcross (h.imp hms.mp hsm.mp))]
      by_cases hshare : a.master = b.master ∨ a.slave = b.slave
      · rw [if_pos (hshare.imp hmm.mpr hss.mpr), if_pos hshare]
      · rw [if_neg (fun h => hshare (h.imp hmm.mp hss.mp)), if_neg hshare,
          if_neg hcross]

/-- C1 (amended).  Provided every interferogram in the list has distinct
master and slave epochs, `get_vcmt` returns the matrix whose (i,j) entry is
`sqrt(maxvar[i]) * sqrt(maxvar[j]) * C[i,j]` with `C` exactly the claim's
coefficient chain (`1.0` for equal master and slave, else `0.5` for a shared
master or slave, else `-0.5` for a master equal to the other's slave, else
`0`), and the matrix is symmetric.  (Without the distinctness hypothesis the
source's overwrite order makes `-0.5` beat `0.5`; see the counterexample.) -/
theorem get_vcmt_entries_and_symm (ifgs : List PrereadIfg) (mv : List ℝ)
    (i j : ℕ) (hns : ∀ g ∈ ifgs, g.master ≠ g.slave)
    (hi : i < ifgs.length) (hj : j < ifgs.length) :
    get_vcmt ifgs mv i j
      = Real.sqrt (mv.getD i 0) * Real.sqrt (mv.getD j 0) * claimC ifgs i j
    ∧ get_vcmt ifgs mv i j = get_vcmt ifgs mv j i := by
  have hai : ifgs.getD i default ∈ ifgs := by
    rw [List.getD_eq_getElem _ _ hi]; exact List.getElem_mem hi
  have haj : ifgs.getD j default ∈ ifgs := by
    rw [List.getD_eq_getElem _ _ hj]; exact List.getElem_mem hj
  have hmem : ∀ g ∈ ifgs,
      g.master ∈ ifgs.map PrereadIfg.master ++ ifgs.map PrereadIfg.slave
      ∧ g.slave ∈ ifgs.map PrereadIfg.master ++ ifgs.map PrereadIfg.slave := by
    intro g hg
    exact ⟨List.mem_append_left _ (List.mem_map_of_mem _ hg),
      List.mem_append_right _ (List.mem_map_of_mem _ hg)⟩
  constructor
  · show _ * vcmPatEntry _ _ _ = _ * claimC ifgs i j
    rw [claimC, vcmPatEntry_eq_claimCEntry _ _ _
      (hmem _ hai).1 (hmem _ hai).2 (hmem _ haj).1 (hmem _ haj).2
      (hns _ hai) (hns _ haj)]
  · show _ * vcmPatEntry _ _ _ = _ * vcmPatEntry _ _ _
    rw [vcmPatEntry_symm, mul_comm (Real.sqrt (mv.getD i 0))]

/-- C1 witness: the specification's own worked example — interferograms
A(1,2), B(1,3), C(2,3) with distinct epochs — instantiated at entry (0,1). -/
theorem get_vcmt_entries_and_symm_witness :
    get_vcmt [mkIfg 1 2, mkIfg 1 3, mkIfg 2 3] [4, 9, 16] 0 1
      = Real.sqrt (([4, 9, 16] : List ℝ).getD 0 0)
        * Real.sqrt (([4, 9, 16] : List ℝ).getD 1 0)
        * claimC [mkIfg 1 2, mkIfg 1 3, mkIfg 2 3] 0 1
    ∧ get_vcmt [mkIfg 1 2, mkIfg 1 3, mkIfg 2 3] [4, 9, 16] 0 1
      = get_vcmt [mkIfg 1 2, mkIfg 1 3, mkIfg 2 3] [4, 9, 16] 1 0 :=
  get_vcmt_entries_and_symm [mkIfg 1 2, mkIfg 1 3, mkIfg 2 3] [4, 9, 16] 0 1
    (by decide) (by decide) (by decide)

/-- C1 counterexample: with a degenerate interferogram whose master equals
its slave, the claim's chain gives `0.5` (shared master only) at entry (0,1)
but the source's overwrite order gives `-0.5` (the anti-correlation test also
fires and is applied later), so the claimed entry formula fails as stated. -/
theorem get_vcmt_claim_counterexample :
    get_vcmt [mkIfg 1 2, mkIfg 1 1] [1, 1] 0 1
      ≠ Real.sqrt (([1, 1] : List ℝ).getD 0 0)
        * Real.sqrt (([1, 1] : List ℝ).getD 1 0)
        * claimC [mkIfg 1 2, mkIfg 1 1] 0 1 := by
  have e1 : master_slave_ids [1, 1, 2, 1] 1 = 0 := by decide
  have e2 : master_slave_ids [1, 1, 2, 1] 2 = 1 := by decide
  have hL : get_vcmt [mkIfg 1 2, mkIfg 1 1] [1, 1] 0 1 = -0.5 := by
    show Real.sqrt (([1, 1] : List ℝ).getD 0 0)
        * Real.sqrt (([1, 1] : List ℝ).getD 1 0)
        * vcmPatEntry (master_slave_ids [1, 1, 2, 1]) (mkIfg 1 2) (mkIfg 1 1)
      = -0.5
    have hpat : vcmPatEntry (master_slave_ids [1, 1, 2, 1])
        (mkIfg 1 2) (mkIfg 1 1) = -0.5 := by
      simp only [vcmPatEntry, mkIfg, e1, e2]
      norm_num
    rw [hpat]
    simp [Real.sqrt_one]
  have hR : claimCEntry (mkIfg 1 2) (mkIfg 1 1) = 0.5 := by
    simp only [claimCEntry, mkIfg]
    norm_num
  rw [hL, claimC]
  show _ ≠ _ * _ * claimCEntry (mkIfg 1 2) (mkIfg 1 1)
  rw [hR]
  simp only [List.getD]
  norm_num [Real.sqrt_one]

theorem foldl_max_mem {α : Type} [LinearOrder α] (l : List α) (init : α) :
    l.foldl max init = init ∨ l.foldl max init ∈ l := by
  induction l generalizing init with
  | nil => exact Or.inl rfl
  | cons a t ih =>
    rw [List.foldl_cons]
    rcases ih (max init a) with h | h
    · rcases max_choice init a with hm | hm
      · exact Or.inl (by rw [h, hm])
      · exact Or.inr (by rw [h, hm]; exact List.mem_cons_self a t)
    · exact Or.inr (List.mem_cons_of_mem a h)

theorem le_foldl_max {α : Type} [LinearOrder α] (l : List α) (init : α) :
    init ≤ l.foldl max init ∧ ∀ x ∈ l, x ≤ l.foldl max init := by
  induction l generalizing init with
  | nil => exact ⟨le_refl _, by intro x hx; cases hx⟩
  | cons a t ih =>
    obtain ⟨h1, h2⟩ := ih (max init a)
    rw [List.foldl_cons]
    refine ⟨le_trans (le_max_left _ _) h1, ?_⟩
    intro x hx
    rcases List.mem_cons.mp hx with rfl | hx
    · exact le_trans (le_max_right init x) h1
    · exact h2 x hx

theorem npMax_mem {α : Type} [LinearOrder α] (d : α) (l : List α)
    (h : l ≠ []) : npMax d l ∈ l := by
  cases l with
  | nil => exact absurd rfl h
  | cons a t =>
    show (a :: t).foldl max ((a :: t).headD d) ∈ a :: t
    rw [List.headD_cons, List.foldl_cons, max_self]
    rcases foldl_max_mem t a with h1 | h1
    · rw [h1]; exact List.mem_cons_self a t
    · exact List.mem_cons_of_mem a h1

theorem le_npMax {α : Type} [LinearOrder α] (d : α) (l : List α) {x : α}
    (hx : x ∈ l) : x ≤ npMax d l := by
  cases l with
  | nil => cases hx
  | cons a t =>
    show x ≤ (a :: t).foldl max ((a :: t).headD d)
    rw [List.headD_cons, List.foldl_cons, max_self]
    rcases List.mem_cons.mp hx with rfl | hx
    · exact (le_foldl_max t x).1
    · exact (le_foldl_max t a).2 x hx

theorem ceilHalf_eq_ceil (n : ℕ) :
    (ceilHalf n : ℤ) = Int.ceil ((n : ℚ) / 2) := by
  rw [eq_comm, Int.ceil_eq_iff]
  have h2 : n % 2 = 0 ∨ n % 2 = 1 := by omega
  rcases h2 with h | h
  · obtain ⟨k, rfl⟩ : ∃ k, n = 2 * k := ⟨n / 2, by omega⟩
    have hch : ceilHalf (2 * k) = k := by simp [ceilHalf]; omega
    rw [hch]
    constructor <;> push_cast <;> linarith
  · obtain ⟨k, rfl⟩ : ∃ k, n = 2 * k + 1 := ⟨n / 2, by omega⟩
    have hch : ceilHalf (2 * k + 1) = k + 1 := by simp [ceilHalf]; omega
    rw [hch]
    constructor <;> push_cast <;> linarith

/-- C3 (amended).  In `cvd`, the flattened arrays are truncated to the first
`ceil(num_cells/2) + nrows` elements; the cutoff radius is the smaller of
`x_centre*x_size` and `y_centre*y_size` in km; surviving points are exactly
the truncated points with radial distance STRICTLY below that radius (a
point at exactly the inscribed radius is discarded as well, which is where
the claim's wording fails); and `maxvar` is the maximum autocorrelation
among the survivors. -/
theorem cvd_truncation_filter_maxvar (r_dist acg : List ℚ)
    (num_cells nrows : ℕ) (xc xs yc ys : ℚ)
    (hne : cvdSurvivors r_dist acg num_cells nrows xc xs yc ys ≠ []) :
    maxdist xc xs yc ys = min (xc * xs) (yc * ys) / 1000
    ∧ (ceilHalf num_cells : ℤ) = Int.ceil ((num_cells : ℚ) / 2)
    ∧ (∀ p : ℚ × ℚ,
        p ∈ cvdSurvivors r_dist acg num_cells nrows xc xs yc ys ↔
          p ∈ (r_dist.take (ceilHalf num_cells + nrows)).zip
              (acg.take (r_dist.take (ceilHalf num_cells + nrows)).length)
          ∧ p.1 < maxdist xc xs yc ys)
    ∧ cvdMaxvar r_dist acg num_cells nrows xc xs yc ys
        ∈ (cvdSurvivors r_dist acg num_cells nrows xc xs yc ys).map Prod.snd
    ∧ ∀ a ∈ (cvdSurvivors r_dist acg num_cells nrows xc xs yc ys).map
        Prod.snd, a ≤ cvdMaxvar r_dist acg num_cells nrows xc xs yc ys := by
  refine ⟨?_, ceilHalf_eq_ceil num_cells, ?_, ?_, ?_⟩
  · unfold maxdist
    rcases lt_or_ge (xc * xs) (yc * ys) with h | h
    · rw [if_pos h, min_eq_left h.le]
    · rw [if_neg (not_lt.mpr h), min_eq_right h]
  · intro p
    unfold cvdSurvivors cvdTruncate
    simp only [List.mem_filter, decide_eq_true_eq]
  · unfold cvdMaxvar
    exact npMax_mem 0 _ (by simpa using hne)
  · intro a ha
    unfold cvdMaxvar
    exact le_npMax 0 _ ha

theorem cvdSurvivors_ex :
    cvdSurvivors [5, 4, 5, 3, 0, 3, 5, 4, 5] [0, 0, 0, 9, 2, 1, 0, 0, 0]
      9 3 1 3000 1 4000 = [(0, 2)] := by
  have hmd : maxdist 1 3000 1 4000 = 3 := by norm_num [maxdist]
  simp only [cvdSurvivors, cvdTruncate, hmd]
  decide

/-- C3 witness: the amended statement instantiated on a 3x3 raster with
3000 m x 4000 m pixels (all radial distances rational by 3-4-5 triangles). -/
theorem cvd_truncation_filter_maxvar_witness :
    maxdist 1 3000 1 4000 = min ((1 : ℚ) * 3000) ((1 : ℚ) * 4000) / 1000
    ∧ (ceilHalf 9 : ℤ) = Int.ceil ((9 : ℚ) / 2)
    ∧ (∀ p : ℚ × ℚ,
        p ∈ cvdSurvivors [5, 4, 5, 3, 0, 3, 5, 4, 5]
            [0, 0, 0, 9, 2, 1, 0, 0, 0] 9 3 1 3000 1 4000 ↔
          p ∈ (([5, 4, 5, 3, 0, 3, 5, 4, 5] : List ℚ).take (ceilHalf 9 + 3)).zip
              (([0, 0, 0, 9, 2, 1, 0, 0, 0] : List ℚ).take
                ((([5, 4, 5, 3, 0, 3, 5, 4, 5] : List ℚ).take
                  (ceilHalf 9 + 3)).length))
          ∧ p.1 < maxdist 1 3000 1 4000)
    ∧ cvdMaxvar [5, 4, 5, 3, 0, 3, 5, 4, 5] [0, 0, 0, 9, 2, 1, 0, 0, 0]
        9 3 1 3000 1 4000
        ∈ (cvdSurvivors [5, 4, 5, 3, 0, 3, 5, 4, 5]
            [0, 0, 0, 9, 2, 1, 0, 0, 0] 9 3 1 3000 1 4000).map Prod.snd
    ∧ ∀ a ∈ (cvdSurvivors [5, 4, 5, 3, 0, 3, 5, 4, 5]
        [0, 0, 0, 9, 2, 1, 0, 0, 0] 9 3 1 3000 1 4000).map Prod.snd,
        a ≤ cvdMaxvar [5, 4, 5, 3, 0, 3, 5, 4, 5] [0, 0, 0, 9, 2, 1, 0, 0, 0]
          9 3 1 3000 1 4000 :=
  cvd_truncation_filter_maxvar [5, 4, 5, 3, 0, 3, 5, 4, 5]
    [0, 0, 0, 9, 2, 1, 0, 0, 0] 9 3 1 3000 1 4000
    (by rw [cvdSurvivors_ex]; exact List.cons_ne_nil _ _)

/-- C3 counterexample: on the same 3x3 raster the boundary points lie at
exactly the inscribed radius (distance 3 = maxdist).  The source discards
them (`r_dist < maxdist`) and returns maxvar 2, while the claim's survivor
set ("discard points beyond the radius") keeps them and its maximum is 9. -/
theorem cvd_maxvar_claim_counterexample :
    cvdMaxvar [5, 4, 5, 3, 0, 3, 5, 4, 5] [0, 0, 0, 9, 2, 1, 0, 0, 0]
      9 3 1 3000 1 4000
    ≠ claimMaxvar [5, 4, 5, 3, 0, 3, 5, 4, 5] [0, 0, 0, 9, 2, 1, 0, 0, 0]
      9 3 1 3000 1 4000 := by
  have hmd : maxdist 1 3000 1 4000 = 3 := by norm_num [maxdist]
  have h1 : cvdMaxvar [5, 4, 5, 3, 0, 3, 5, 4, 5] [0, 0, 0, 9, 2, 1, 0, 0, 0]
      9 3 1 3000 1 4000 = 2 := by
    unfold cvdMaxvar
    rw [cvdSurvivors_ex]
    decide
  have h2 : claimMaxvar [5, 4, 5, 3, 0, 3, 5, 4, 5] [0, 0, 0, 9, 2, 1, 0, 0, 0]
      9 3 1 3000 1 4000 = 9 := by
    simp only [claimMaxvar, claimSurvivors, cvdTruncate, hmd]
    decide
  rw [h1, h2]
  norm_num

theorem getD_map_range {β : Type} (f : ℕ → β) (d : β) (M b : ℕ)
    (hb : b < M) : ((List.range M).map f).getD b d = f b := by
  rw [List.getD_eq_getElem _ _ (by simpa using hb)]
  simp [List.getElem_map, List.getElem_range]

/-- C2 (amended).  The `calc_alpha` branch of `cvd` hands the external
unconstrained minimiser the objective `fun a => pendiffexp a cvdav` — the
residual norm of the model `mx * exp(-alpha * r)` whose amplitude `mx` is
`cvdav[1,0]`, the FIRST BINNED MEAN autocorrelation (not the computed
`maxvar`, which is where the claim's wording fails) — seeded at
`2 / (maxbin * bin_width)` with `bin_width = 2 * max(x_size, y_size) / 1000`,
over per-bin mean autocorrelations at bin distances `b * bin_width`. -/
theorem cvd_alpha_objective_and_seed (fminImpl : (ℝ → ℝ) → ℝ → ℝ)
    (acg r_dist : List ℚ) (xs ys : ℚ) :
    cvdCalcAlpha fminImpl acg r_dist xs ys
      = fminImpl (fun a => pendiffexp a (cvdavOf acg r_dist xs ys))
          ((2 : ℝ) / ((maxbinOf r_dist xs ys : ℝ) * (binWidth xs ys : ℝ)))
    ∧ binWidth xs ys = 2 * max xs ys / 1000
    ∧ (∀ (a : ℝ) (cvdav : List ℚ × List ℚ),
        pendiffexp a cvdav = claimPendiffexp (cvdav.2.headD 0) a cvdav)
    ∧ (∀ b : ℕ, b < (maxbinOf r_dist xs ys).toNat →
        (cvdavOf acg r_dist xs ys).1.getD b 0 = (b : ℚ) * binWidth xs ys
        ∧ (cvdavOf acg r_dist xs ys).2.getD b 0
          = listMean ((((r_dist.map (rbin (binWidth xs ys))).zip acg).filter
              (fun p => p.1 = (b : ℤ))).map Prod.snd)) := by
  refine ⟨?_, by unfold binWidth; ring, fun a cvdav => rfl, ?_⟩
  · unfold cvdCalcAlpha
    congr 1
    unfold alphaguess
    push_cast
    ring
  · intro b hb
    constructor
    · show ((List.range (maxbinOf r_dist xs ys).toNat).map
          (fun (b : ℕ) => ((b : ℚ) * binWidth xs ys : ℚ))).getD b 0
        = (b : ℚ) * binWidth xs ys
      rw [getD_map_range _ _ _ _ hb]
    · show ((List.range (maxbinOf r_dist xs ys).toNat).map
          (fun (b : ℕ) => listMean
            ((((r_dist.map (rbin (binWidth xs ys))).zip acg).filter
              (fun p => p.1 = ((b : ℕ) : ℤ))).map Prod.snd))).getD b 0 = _
      rw [getD_map_range _ _ _ _ hb]

theorem binWidth_ex : binWidth 500 500 = 1 := by norm_num [binWidth]

theorem bins_ex :
    ([0, 1, 2, 3] : List ℚ).map (rbin (binWidth 500 500)) = [0, 1, 2, 3] := by
  simp only [binWidth_ex, rbin, div_one, List.map_cons, List.map_nil]
  norm_num [Int.ceil_ofNat]

theorem maxbin_ex : maxbinOf [0, 1, 2, 3] 500 500 = 3 := by
  unfold maxbinOf
  rw [bins_ex]
  decide

theorem cvdav_ex :
    cvdavOf [1, 4, 4, 7] [0, 1, 2, 3] 500 500 = ([0, 1, 2], [1, 4, 4]) := by
  unfold cvdavOf
  simp only [bins_ex]
  simp only [binWidth_ex]
  have hM : (npMax 0 ([0, 1, 2, 3] : List ℤ)).toNat = 3 := by decide
  rw [hM]
  have hr : List.range 3 = [0, 1, 2] := rfl
  rw [hr]
  simp only [List.map_cons, List.map_nil]
  norm_num [listMean, List.zip, List.zipWith]

/-- C2 witness: the amended statement instantiated at a concrete
minimiser-evaluator, binned data and bin index. -/
theorem cvd_alpha_objective_and_seed_witness :
    cvdCalcAlpha (fun g x => g x) [1, 4, 4, 7] [0, 1, 2, 3] 500 500
      = (fun (g : ℝ → ℝ) (x : ℝ) => g x)
          (fun a => pendiffexp a (cvdavOf [1, 4, 4, 7] [0, 1, 2, 3] 500 500))
          ((2 : ℝ) / ((maxbinOf [0, 1, 2, 3] 500 500 : ℝ)
            * (binWidth 500 500 : ℝ)))
    ∧ binWidth 500 500 = 2 * max 500 500 / 1000
    ∧ pendiffexp 1 ([0, 1, 2], [1, 4, 4])
        = claimPendiffexp ((([0, 1, 2], [1, 4, 4]) :
            List ℚ × List ℚ).2.headD 0) 1 ([0, 1, 2], [1, 4, 4])
    ∧ (cvdavOf [1, 4, 4, 7] [0, 1, 2, 3] 500 500).1.getD 0 0
        = ((0 : ℕ) : ℚ) * binWidth 500 500
    ∧ (cvdavOf [1, 4, 4, 7] [0, 1, 2, 3] 500 500).2.getD 0 0
        = listMean
            ((((([0, 1, 2, 3] : List ℚ).map (rbin (binWidth 500 500))).zip
              ([1, 4, 4, 7] : List ℚ)).filter
                (fun p => p.1 = ((0 : ℕ) : ℤ))).map Prod.snd) := by
  have h0 : (0 : ℕ) < (maxbinOf [0, 1, 2, 3] 500 500).toNat := by
    rw [maxbin_ex]; decide
  obtain ⟨t1, t2, t3, t4⟩ :=
    cvd_alpha_objective_and_seed (fun g x => g x) [1, 4, 4, 7] [0, 1, 2, 3]
      500 500
  exact ⟨t1, t2, t3 1 ([0, 1, 2], [1, 4, 4]), (t4 0 h0).1, (t4 0 h0).2⟩

/-- C2 counterexample: with autocorrelation data whose maximum (7, in the
last bin) exceeds the first binned mean (1), the objective the source hands
the minimiser differs from the claim's `maxvar`-amplitude objective: at
alpha 0 the source residual norm is `sqrt 18` but the claim's is `sqrt 54`.
The minimiser argument is instantiated with an evaluator at 0. -/
theorem cvd_alpha_amplitude_counterexample :
    cvdCalcAlpha (fun g _ => g 0) [1, 4, 4, 7] [0, 1, 2, 3] 500 500
      ≠ (fun (g : ℝ → ℝ) (_ : ℝ) => g 0)
          (fun a => claimPendiffexp (npMax 0 ([1, 4, 4, 7] : List ℚ)) a
            (cvdavOf [1, 4, 4, 7] [0, 1, 2, 3] 500 500))
          ((alphaguess [0, 1, 2, 3] 500 500 : ℚ) : ℝ) := by
  have hmx : npMax 0 ([1, 4, 4, 7] : List ℚ) = 7 := by decide
  show cvdCalcAlpha (fun g _ => g 0) [1, 4, 4, 7] [0, 1, 2, 3] 500 500
    ≠ claimPendiffexp (npMax 0 ([1, 4, 4, 7] : List ℚ)) 0
        (cvdavOf [1, 4, 4, 7] [0, 1, 2, 3] 500 500)
  unfold cvdCalcAlpha
  rw [cvdav_ex, hmx]
  show pendiffexp 0 (([0, 1, 2], [1, 4, 4]) : List ℚ × List ℚ)
    ≠ claimPendiffexp 7 0 (([0, 1, 2], [1, 4, 4]) : List ℚ × List ℚ)
  have hL : pendiffexp 0 (([0, 1, 2], [1, 4, 4]) : List ℚ × List ℚ)
      = Real.sqrt 18 := by
    unfold pendiffexp npNorm
    norm_num [List.zipWith, Real.exp_zero]
  have hR : claimPendiffexp 7 0 (([0, 1, 2], [1, 4, 4]) : List ℚ × List ℚ)
      = Real.sqrt 54 := by
    unfold claimPendiffexp npNorm
    norm_num [List.zipWith, Real.exp_zero]
  rw [hL, hR]
  intro h
  have h' := (Real.sqrt_inj (by norm_num) (by norm_num)).mp h
  norm_num at h'

theorem dictLookup_insert_self {β : Type} (d : List (String × β))
    (k : String) (v : β) : dictLookup (dictInsert d k v) k = some v := by
  unfold dictLookup dictInsert
  rw [List.find?_append]
  have h1 : (d.filter (fun kv => kv.1 ≠ k)).find? (fun kv => kv.1 = k)
      = none := by
    apply List.find?_eq_none.mpr
    intro x hx
    have hx2 := (List.mem_filter.mp hx).2
    simp at hx2 ⊢
    exact hx2
  have h2 : ([(k, v)] : List (String × β)).find? (fun kv => kv.1 = k)
      = some (k, v) := List.find?_cons_of_pos _ (by simp)
  rw [h1, h2]
  rfl

theorem dictLookup_insert_ne {β : Type} (d : List (String × β))
    (k : String) (v : β) (key : String) (h : key ≠ k) :
    dictLookup (dictInsert d k v) key = dictLookup d key := by
  have hk : k ≠ key := Ne.symm h
  unfold dictLookup dictInsert
  rw [List.find?_append]
  have h2 : ([(k, v)] : List (String × β)).find? (fun kv => kv.1 = key)
      = none := by
    apply List.find?_eq_none.mpr
    intro x hx
    simp at hx
    rw [hx]
    simp [hk]
  rw [h2, Option.or_none]
  congr 1
  induction d with
  | nil => rfl
  | cons a t ih =>
    by_cases hak : a.1 = k
    · rw [List.filter_cons_of_neg (by simp [hak]),
        List.find?_cons_of_neg _ (by simp [hak, hk])]
      exact ih
    · rw [List.filter_cons_of_pos (by simp [hak])]
      by_cases hakey : a.1 = key
      · rw [List.find?_cons_of_pos _ (by simp [hakey]),
          List.find?_cons_of_pos _ (by simp [hakey])]
      · rw [List.find?_cons_of_neg _ (by simp [hakey]),
          List.find?_cons_of_neg _ (by simp [hakey])]
        exact ih

/-- C4 (amended).  Re-running `cvd` — on an interferogram whose nan and
millimetre conversions have already run — with `write_vals=False` leaves
the whole state (phase, metadata, flags, marker) unchanged; with
`write_vals=True` it leaves the phase values unchanged and sets exactly the
two metadata keys maxvar and alpha to the stringified scalars, every other
metadata key reading as before.  (On a not-yet-converted interferogram the
unconditional unit conversion rescales the phase; see the
counterexample.) -/
theorem cvd_frame_effect (nanConversion : Bool)
    (nodata mmFactor maxvar alpha : ℚ) (ifg : IfgState)
    (hn : ifg.nanConverted = true) (hm : ifg.mmConverted = true) :
    cvd_effect nanConversion nodata mmFactor maxvar alpha false ifg = ifg
    ∧ (cvd_effect nanConversion nodata mmFactor maxvar alpha true ifg).phase
        = ifg.phase
    ∧ dictLookup (cvd_effect nanConversion nodata mmFactor maxvar alpha true
        ifg).metadata PYRATE_MAXVAR = some (toString maxvar)
    ∧ dictLookup (cvd_effect nanConversion nodata mmFactor maxvar alpha true
        ifg).metadata PYRATE_ALPHA = some (toString alpha)
    ∧ ∀ key : String, key ≠ PYRATE_MAXVAR → key ≠ PYRATE_ALPHA →
        dictLookup (cvd_effect nanConversion nodata mmFactor maxvar alpha true
          ifg).metadata key = dictLookup ifg.metadata key := by
  have hconv : nan_and_mm_convert nanConversion nodata mmFactor ifg = ifg := by
    unfold nan_and_mm_convert
    simp [hn, hm]
  refine ⟨?_, ?_, ?_, ?_, ?_⟩
  · simp [cvd_effect, hconv]
  · simp [cvd_effect, hconv, add_metadata]
  · simp only [cvd_effect, hconv, if_pos, add_metadata]
    rw [dictLookup_insert_ne _ _ _ _ (by decide), dictLookup_insert_self]
  · simp only [cvd_effect, hconv, if_pos, add_metadata]
    rw [dictLookup_insert_self]
  · intro key hk1 hk2
    simp only [cvd_effect, hconv, if_pos, add_metadata]
    rw [dictLookup_insert_ne _ _ _ _ hk2, dictLookup_insert_ne _ _ _ _ hk1]

/-- C4 witness: the amended statement on a concrete converted
interferogram, the untouched-keys clause instantiated at the pre-existing
key "X". -/
theorem cvd_frame_effect_witness :
    cvd_effect true 0 3 (5 : ℚ) (7 : ℚ) false convIfg = convIfg
    ∧ (cvd_effect true 0 3 (5 : ℚ) (7 : ℚ) true convIfg).phase = convIfg.phase
    ∧ dictLookup (cvd_effect true 0 3 (5 : ℚ) (7 : ℚ) true
        convIfg).metadata PYRATE_MAXVAR = some (toString (5 : ℚ))
    ∧ dictLookup (cvd_effect true 0 3 (5 : ℚ) (7 : ℚ) true
        convIfg).metadata PYRATE_ALPHA = some (toString (7 : ℚ))
    ∧ dictLookup (cvd_effect true 0 3 (5 : ℚ) (7 : ℚ) true
        convIfg).metadata "X" = dictLookup convIfg.metadata "X" := by
  obtain ⟨t1, t2, t3, t4, t5⟩ :=
    cvd_frame_effect true 0 3 5 7 convIfg (by rfl) (by rfl)
  exact ⟨t1, t2, t3, t4, t5 "X" (by decide) (by decide)⟩

/-- C4 counterexample: calling `cvd` with `write_vals=False` on a raw
(not yet converted) interferogram does mutate its phase data — the
unconditional nan/mm conversion rescales the single cell from 1 to 2. -/
theorem cvd_write_false_counterexample :
    (cvd_effect true 0 2 (5 : ℚ) (7 : ℚ) false rawIfg).phase
      ≠ rawIfg.phase := by
  have hp : (cvd_effect true 0 2 (5 : ℚ) (7 : ℚ) false rawIfg).phase
      = [some 2] := by
    norm_num [cvd_effect, nan_and_mm_convert, rawIfg]
  rw [hp]
  norm_num [rawIfg]

/-- C5: with a preread registry in which every interferogram is already
marked reference-phase-removed, the estimation stage is skipped on the
master rank but still runs on rank 1 — the early return at
`run_pyrate.py` lines 296-299 is guarded by `mpiops.rank == MASTER_PROCESS`,
so every non-master rank recomputes its shard's corrections and rewrites
its interferograms (and then sends to a master that has already
returned). -/
theorem ref_phase_skip_only_on_master :
    check_ref_phs_ifgs markedReg = true
    ∧ ref_phase_estimation_runs 0 (some markedReg) = false
    ∧ ref_phase_estimation_runs 1 (some markedReg) = true := by decide

/-- C6 (amended).  A supplied reference-pixel coordinate exceeding the
maximum valid column index is a fatal input error, as is one that passes
the column check but exceeds the maximum valid row index; an in-bounds
coordinate with both components strictly positive is reused without
running the search.  (An out-of-bounds coordinate on the low side — zero
or negative — is not an error: it triggers the search instead; see the
counterexample.) -/
theorem ref_pixel_calc_bounds (refx refy : ℤ) (nrows ncols : ℕ) :
    (refx > (ncols : ℤ) - 1 →
      ref_pixel_calc refx refy nrows ncols = RefPixelOutcome.fatalX)
    ∧ (refx ≤ (ncols : ℤ) - 1 → refy > (nrows : ℤ) - 1 →
      ref_pixel_calc refx refy nrows ncols = RefPixelOutcome.fatalY)
    ∧ (inBounds refx refy nrows ncols → 0 < refx → 0 < refy →
      ref_pixel_calc refx refy nrows ncols = RefPixelOutcome.reuse refx refy)
    := by
  unfold ref_pixel_calc
  refine ⟨fun h => ?_, fun h1 h2 => ?_, fun hb h1 h2 => ?_⟩
  · rw [if_pos h]
  · rw [if_neg (not_lt.mpr h1), if_pos h2]
  · obtain ⟨_, hx2, _, hy2⟩ := hb
    rw [if_neg (not_lt.mpr hx2), if_neg (not_lt.mpr hy2),
      if_neg (by omega : ¬(refx ≤ 0 ∨ refy ≤ 0))]

/-- C6 witness: the three clauses of the amended statement at concrete
coordinates on a 10x10 raster. -/
theorem ref_pixel_calc_bounds_witness :
    ref_pixel_calc 20 5 10 10 = RefPixelOutcome.fatalX
    ∧ ref_pixel_calc 5 20 10 10 = RefPixelOutcome.fatalY
    ∧ ref_pixel_calc 5 7 10 10 = RefPixelOutcome.reuse 5 7 :=
  ⟨(ref_pixel_calc_bounds 20 5 10 10).1 (by decide),
   (ref_pixel_calc_bounds 5 20 10 10).2.1 (by decide) (by decide),
   (ref_pixel_calc_bounds 5 7 10 10).2.2 (by decide) (by decide) (by decide)⟩

/-- C6 counterexample: the supplied coordinate (-1, 5) on a 10x10 raster
is out of bounds (refx is not a valid column index), yet `ref_pixel_calc`
does not fail — it falls through to the search branch. -/
theorem ref_pixel_calc_claim_counterexample :
    ¬ inBounds (-1) 5 10 10
    ∧ ref_pixel_calc (-1) 5 10 10 = RefPixelOutcome.search := by decide

/-- C10 (amended).  Provided the supplied coordinate passes the two
upper-bound checks (which run first), any coordinate with `refx <= 0` or
`refy <= 0` is treated as absent: the search runs, no error is raised and
the coordinate is never reused; in particular a supplied (0, 0), though in
bounds on any nonempty raster, always triggers the search.  (If the other
component exceeds its upper bound the fatal error still fires; see the
counterexample.) -/
theorem ref_pixel_calc_nonpositive_search (refx refy : ℤ) (nrows ncols : ℕ)
    (hc : 1 ≤ ncols) (hr : 1 ≤ nrows)
    (hx : refx ≤ (ncols : ℤ) - 1) (hy : refy ≤ (nrows : ℤ) - 1)
    (h0 : refx ≤ 0 ∨ refy ≤ 0) :
    ref_pixel_calc refx refy nrows ncols = RefPixelOutcome.search
    ∧ ref_pixel_calc 0 0 nrows ncols = RefPixelOutcome.search := by
  unfold ref_pixel_calc
  constructor
  · rw [if_neg (not_lt.mpr hx), if_neg (not_lt.mpr hy), if_pos h0]
  · rw [if_neg (by omega : ¬((ncols : ℤ) - 1 < 0)),
      if_neg (by omega : ¬((nrows : ℤ) - 1 < 0)),
      if_pos (Or.inl (le_refl 0))]

/-- C10 witness: the amended statement at the supplied coordinate (0, -3)
on a 10x10 raster. -/
theorem ref_pixel_calc_nonpositive_search_witness :
    ref_pixel_calc 0 (-3) 10 10 = RefPixelOutcome.search
    ∧ ref_pixel_calc 0 0 10 10 = RefPixelOutcome.search :=
  ref_pixel_calc_nonpositive_search 0 (-3) 10 10 (by decide) (by decide)
    (by decide) (by decide) (by decide)

/-- C10 counterexample: refx = -1 is nonpositive, yet with refy = 1000 on
a 10x10 raster `ref_pixel_calc` raises the fatal row-bound error instead
of running the search — the upper-bound checks come first. -/
theorem ref_pixel_calc_c10_counterexample :
    ((-1 : ℤ) ≤ 0 ∨ (1000 : ℤ) ≤ 0)
    ∧ ref_pixel_calc (-1) 1000 10 10 = RefPixelOutcome.fatalY := by decide

/-- C9.  On a registry dictionary, `get_vcmt` keeps exactly the entries
whose value is a `PrereadIfg` (the global `epochlist`/`gt`/`md`/`wkt`
entries are discarded), arranges them in ascending sorted order of their
path keys (a permutation of the surviving entries with sorted keys), and
builds the matrix from the snapshot values in that order, so row and
column `i` correspond to the i-th path in sorted order. -/
theorem get_vcmt_dict_sorted (reg : List (String × RegVal)) (mv : List ℝ) :
    List.Sorted (· ≤ ·) ((sortedPreItems reg).map Prod.fst)
    ∧ List.Perm (sortedPreItems reg) (reg.filter (fun kv => kv.2.isPre))
    ∧ (∀ kv : String × RegVal,
        kv ∈ sortedPreItems reg ↔ kv ∈ reg ∧ kv.2.isPre = true)
    ∧ get_vcmt_dict reg mv
        = get_vcmt ((sortedPreItems reg).map (fun kv => kv.2.getPre)) mv := by
  refine ⟨?_, List.perm_insertionSort byKey _, ?_, rfl⟩
  · have hs : List.Sorted byKey (sortedPreItems reg) :=
      List.sorted_insertionSort byKey _
    rw [List.Sorted, List.pairwise_map]
    exact hs
  · intro kv
    unfold sortedPreItems
    rw [(List.perm_insertionSort byKey _).mem_iff, List.mem_filter]

theorem splitStart_succ (n size k : ℕ) :
    splitStart n size (k + 1) = splitStart n size k + splitLen n size k := by
  unfold splitStart splitLen
  rcases lt_or_ge k (n % size) with h | h
  · rw [if_pos h, min_eq_left h.le, min_eq_left (by omega : k + 1 ≤ n % size)]
    ring
  · rw [if_neg (not_lt.mpr h), min_eq_right h,
      min_eq_right (by omega : n % size ≤ k + 1)]
    ring

theorem splitStart_size (n size : ℕ) (hs : 0 < size) :
    splitStart n size size = n := by
  unfold splitStart
  rw [min_eq_right (Nat.mod_lt _ hs).le]
  exact Nat.div_add_mod n size

theorem splitStart_add_len_le (n size a b : ℕ) (h : a < b) :
    splitStart n size a + splitLen n size a ≤ splitStart n size b := by
  induction b with
  | zero => omega
  | succ b ih =>
    have h2 := splitStart_succ n size b
    rcases Nat.lt_succ_iff_lt_or_eq.mp h with h' | h'
    · have := ih h'
      omega
    · subst h'
      omega

theorem assemble_untouched (partials : ℕ → List ℝ) (n size : ℕ)
    (l : List ℕ) (a : ℕ → ℝ) (i : ℕ)
    (h : ∀ x ∈ l, ¬(splitStart n size x ≤ i
      ∧ i < splitStart n size x + splitLen n size x)) :
    l.foldl (placeShard partials n size) a i = a i := by
  induction l generalizing a with
  | nil => rfl
  | cons x t ih =>
    rw [List.foldl_cons]
    rw [ih _ (fun y hy => h y (List.mem_cons_of_mem _ hy))]
    simp [placeShard, h x (List.mem_cons_self x t)]

theorem assemble_at_mem (partials : ℕ → List ℝ) (n size : ℕ)
    (l : List ℕ) (a : ℕ → ℝ) (i r : ℕ) (hr : r ∈ l) (hnd : l.Nodup)
    (hi : splitStart n size r ≤ i
      ∧ i < splitStart n size r + splitLen n size r)
    (hothers : ∀ x ∈ l, x ≠ r → ¬(splitStart n size x ≤ i
      ∧ i < splitStart n size x + splitLen n size x)) :
    l.foldl (placeShard partials n size) a i
      = (partials r).getD (i - splitStart n size r) 0 := by
  induction l generalizing a with
  | nil => cases hr
  | cons x t ih =>
    rw [List.foldl_cons]
    by_cases hxr : x = r
    · subst hxr
      have hnotin : x ∉ t := (List.nodup_cons.mp hnd).1
      rw [assemble_untouched partials n size t _ i ?hall]
      · simp [placeShard, hi]
      · intro y hy
        exact hothers y (List.mem_cons_of_mem _ hy)
          (fun hyx => hnotin (hyx ▸ hy))
    · have hrt : r ∈ t := by
        rcases List.mem_cons.mp hr with h' | h'
        · exact absurd h'.symm hxr
        · exact h'
      exact ih _ hrt (List.nodup_cons.mp hnd).2
        (fun y hy hyz => hothers y (List.mem_cons_of_mem _ hy) hyz)

/-- C8.  The leader places each rank r's shard at exactly the contiguous
index block the deterministic partition assigns to rank r, and — because
the blocks of distinct ranks are disjoint and each message is keyed by its
sender's rank — the reassembled full-length array is the same for every
processing (arrival) order of the shards. -/
theorem ref_phs_reassembly_order_invariant (partials : ℕ → List ℝ)
    (n size : ℕ) (order : List ℕ)
    (hperm : List.Perm order (List.range size)) :
    assembleRefPhs partials n size order
      = assembleRefPhs partials n size (List.range size)
    ∧ ∀ r : ℕ, r < size → ∀ k : ℕ, k < splitLen n size r →
        assembleRefPhs partials n size (List.range size)
          (splitStart n size r + k) = (partials r).getD k 0 := by
  have hdisj : ∀ x y : ℕ, x ≠ y → ∀ i : ℕ,
      ¬((splitStart n size x ≤ i ∧ i < splitStart n size x + splitLen n size x)
        ∧ (splitStart n size y ≤ i
          ∧ i < splitStart n size y + splitLen n size y)) := by
    intro x y hne i
    rcases hne.lt_or_lt with h | h
    · have := splitStart_add_len_le n size x y h
      omega
    · have := splitStart_add_len_le n size y x h
      omega
  constructor
  · apply hperm.foldl_eq'
    intro x _ y _ z
    rcases eq_or_ne x y with rfl | hne
    · rfl
    · funext i
      simp only [placeShard]
      by_cases h1 : splitStart n size x ≤ i
          ∧ i < splitStart n size x + splitLen n size x
      · have h2 : ¬(splitStart n size y ≤ i
            ∧ i < splitStart n size y + splitLen n size y) :=
          fun h2 => hdisj x y hne i ⟨h1, h2⟩
        simp [h1, h2]
      · by_cases h2 : splitStart n size y ≤ i
            ∧ i < splitStart n size y + splitLen n size y <;> simp [h1, h2]
  · intro r hr k hk
    have h := assemble_at_mem partials n size (List.range size) (fun _ => 0)
      (splitStart n size r + k) r (List.mem_range.mpr hr) (List.nodup_range _)
      ⟨by omega, by omega⟩
      (fun x _ hxr hxint => hdisj x r hxr (splitStart n size r + k)
        ⟨hxint, by omega, by omega⟩)
    rw [assembleRefPhs, h]
    congr 1
    omega

/-- C8 witness: two ranks, three interferograms — processing the shards in
the order rank 1 then rank 0 yields the same array as ascending order, and
rank 1's shard value lands at its block's start index. -/
theorem ref_phs_reassembly_order_invariant_witness :
    assembleRefPhs examplePartials 3 2 [1, 0]
      = assembleRefPhs examplePartials 3 2 (List.range 2)
    ∧ assembleRefPhs examplePartials 3 2 (List.range 2)
        (splitStart 3 2 1 + 0) = (examplePartials 1).getD 0 0 := by
  obtain ⟨t1, t2⟩ := ref_phs_reassembly_order_invariant examplePartials 3 2
    [1, 0] (by decide)
  exact ⟨t1, t2 1 (by decide) 0 (by decide)⟩

theorem dictLookup_cons_self {β : Type} (d : List (String × β))
    (k : String) (v : β) : dictLookup ((k, v) :: d) k = some v := by
  unfold dictLookup
  rw [List.find?_cons_of_pos _ (by simp)]
  rfl

theorem dictLookup_cons_ne {β : Type} (d : List (String × β))
    (k : String) (v : β) (key : String) (h : key ≠ k) :
    dictLookup ((k, v) :: d) key = dictLookup d key := by
  unfold dictLookup
  rw [List.find?_cons_of_neg _ (by simpa using Ne.symm h)]

theorem dictLookup_map_self (dest : List String) (F : String → RegVal)
    (p : String) (hp : p ∈ dest) :
    dictLookup (dest.map (fun d => (d, F d))) p = some (F p) := by
  induction dest with
  | nil => cases hp
  | cons a t ih =>
    rw [List.map_cons]
    by_cases hap : p = a
    · subst hap
      exact dictLookup_cons_self _ _ _
    · rw [dictLookup_cons_ne _ _ _ _ hap]
      refine ih ?_
      rcases List.mem_cons.mp hp with h' | h'
      · exact absurd h' hap
      · exact h'

theorem dictInsert_fresh {β : Type} (d : List (String × β)) (k : String)
    (v : β) (h : ∀ kv ∈ d, kv.1 ≠ k) : dictInsert d k v = d ++ [(k, v)] := by
  unfold dictInsert
  congr 1
  apply List.filter_eq_self.mpr
  intro kv hkv
  simpa using h kv hkv

theorem foldl_dictInsert_fresh (d acc : List (String × RegVal))
    (h : ∀ kv ∈ d, ∀ kv' ∈ acc, kv'.1 ≠ kv.1)
    (hd : (d.map Prod.fst).Nodup) :
    d.foldl (fun a kv => dictInsert a kv.1 kv.2) acc = acc ++ d := by
  induction d generalizing acc with
  | nil => simp
  | cons a t ih =>
    simp only [List.map_cons, List.nodup_cons] at hd
    rw [List.foldl_cons]
    have hins : dictInsert acc a.1 a.2 = acc ++ [a] := by
      rw [dictInsert_fresh _ _ _
        (fun kv' hkv' => h a (List.mem_cons_self a t) kv' hkv')]
    have hfresh : ∀ kv ∈ t, ∀ kv' ∈ acc ++ [a], kv'.1 ≠ kv.1 := by
      intro kv hkv kv' hkv'
      rcases List.mem_append.mp hkv' with h1 | h1
      · exact h kv (List.mem_cons_of_mem _ hkv) kv' h1
      · have ha : kv' = a := by simpa using h1
        subst ha
        intro heq
        exact hd.1 (heq ▸ List.mem_map_of_mem Prod.fst hkv)
    rw [hins, ih (acc ++ [a]) hfresh hd.2, List.append_assoc]
    rfl

theorem join_dicts_nodup (ds : List (List (String × RegVal)))
    (h : (ds.flatten.map Prod.fst).Nodup) : join_dicts ds = ds.flatten := by
  unfold join_dicts
  suffices key : ∀ acc : List (String × RegVal),
      ((acc ++ ds.flatten).map Prod.fst).Nodup →
      ds.foldl
        (fun a d => d.foldl (fun a2 kv => dictInsert a2 kv.1 kv.2) a) acc
        = acc ++ ds.flatten by
    simpa using key [] (by simpa using h)
  clear h
  induction ds with
  | nil => intro acc _; simp
  | cons d t ih =>
    intro acc hacc
    rw [List.flatten_cons] at hacc
    rw [List.foldl_cons]
    have hsplit := hacc
    rw [List.map_append, List.nodup_append] at hsplit
    obtain ⟨hn1, hn2, hdisj12⟩ := hsplit
    rw [List.map_append, List.nodup_append] at hn2
    obtain ⟨hnd, _, _⟩ := hn2
    have h1 : d.foldl (fun a2 kv => dictInsert a2 kv.1 kv.2) acc
        = acc ++ d := by
      refine foldl_dictInsert_fresh d acc ?_ hnd
      intro kv hkv kv' hkv' heq
      apply hdisj12 (List.mem_map_of_mem Prod.fst hkv')
      rw [heq, List.map_append]
      exact List.mem_append_left _ (List.mem_map_of_mem Prod.fst hkv)
    rw [h1]
    have h2 := ih (acc ++ d) (by rw [List.append_assoc]; exact hacc)
    rw [h2, List.flatten_cons, List.append_assoc]

theorem array_split_flatten {α : Type} (l : List α) (size : ℕ)
    (hs : 0 < size) :
    ((List.range size).map (fun r => array_split l size r)).flatten = l := by
  have key : ∀ k : ℕ,
      ((List.range k).map (fun r => array_split l size r)).flatten
        = l.take (splitStart l.length size k) := by
    intro k
    induction k with
    | zero => simp [splitStart]
    | succ k ih =>
      rw [List.range_succ, List.map_append, List.flatten_append, ih]
      simp only [List.map_cons, List.map_nil, List.flatten_cons,
        List.flatten_nil, List.append_nil]
      rw [splitStart_succ, List.take_add]
      rfl
  rw [key size, splitStart_size _ _ hs, List.take_length]

/-- C7 (amended).  `create_ifg_dict` leaves every worker with the same
registry — the single structure the master persisted — equal to the union
of all workers' path-to-PrereadIfg shard maps plus exactly FOUR global
keys added once by the master: the epoch list (`epochlist`), the
geotransform (`gt`), the projection metadata (`md`) and the well-known-text
projection (`wkt`).  (The claim counts only three global keys; the source
adds `md` as well, lines 117-120.) -/
theorem create_ifg_dict_registry (rank rank' : ℕ) (dest_tifs : List String)
    (size : ℕ) (mkPre : String → PrereadIfg) (gt : List ℚ)
    (md : List (String × String)) (wkt : String) (hs : 0 < size)
    (hnodup : dest_tifs.Nodup)
    (hglob : ∀ p ∈ dest_tifs,
      p ∉ (["epochlist", "gt", "md", "wkt"] : List String)) :
    create_ifg_dict rank dest_tifs size mkPre gt md wkt
      = create_ifg_dict rank' dest_tifs size mkPre gt md wkt
    ∧ (create_ifg_dict rank dest_tifs size mkPre gt md wkt).map Prod.fst
      = dest_tifs ++ ["epochlist", "gt", "md", "wkt"]
    ∧ (∀ p ∈ dest_tifs,
        dictLookup (create_ifg_dict rank dest_tifs size mkPre gt md wkt) p
          = some (RegVal.pre (mkPre p)))
    ∧ dictLookup (create_ifg_dict rank dest_tifs size mkPre gt md wkt)
        "epochlist" = some (RegVal.epochs (get_epochs (dest_tifs.map mkPre)))
    ∧ dictLookup (create_ifg_dict rank dest_tifs size mkPre gt md wkt) "gt"
        = some (RegVal.gtv gt)
    ∧ dictLookup (create_ifg_dict rank dest_tifs size mkPre gt md wkt) "md"
        = some (RegVal.mdv md)
    ∧ dictLookup (create_ifg_dict rank dest_tifs size mkPre gt md wkt) "wkt"
        = some (RegVal.wktv wkt) := by
  have hflat : ((List.range size).map (fun r =>
      (array_split dest_tifs size r).map
        (fun d => (d, RegVal.pre (mkPre d))))).flatten
      = dest_tifs.map (fun d => (d, RegVal.pre (mkPre d))) := by
    rw [show (List.range size).map (fun r =>
        (array_split dest_tifs size r).map
          (fun d => (d, RegVal.pre (mkPre d))))
      = ((List.range size).map (fun r => array_split dest_tifs size r)).map
          (List.map (fun d => (d, RegVal.pre (mkPre d)))) from
      (List.map_map _ _ _).symm]
    rw [← List.map_flatten, array_split_flatten _ _ hs]
  have hbase_keys :
      ((dest_tifs.map (fun d => (d, RegVal.pre (mkPre d)))).map Prod.fst)
      = dest_tifs := by
    rw [List.map_map]
    exact List.map_id' dest_tifs
  have hjoined : join_dicts ((List.range size).map (fun r =>
      (array_split dest_tifs size r).map
        (fun d => (d, RegVal.pre (mkPre d)))))
      = dest_tifs.map (fun d => (d, RegVal.pre (mkPre d))) := by
    rw [join_dicts_nodup _ (by rw [hflat, hbase_keys]; exact hnodup), hflat]
  have hpres : (((dest_tifs.map (fun d => (d, RegVal.pre (mkPre d)))).filter
      (fun kv => kv.2.isPre)).map (fun kv => kv.2.getPre))
      = dest_tifs.map mkPre := by
    rw [List.filter_eq_self.mpr (by
      intro kv hkv
      obtain ⟨d, _, rfl⟩ := List.mem_map.mp hkv
      rfl)]
    rw [List.map_map]
    exact List.map_congr_left (fun d _ => rfl)
  have hreg : create_ifg_dict rank dest_tifs size mkPre gt md wkt
      = dictInsert (dictInsert (dictInsert (dictInsert
          (dest_tifs.map (fun d => (d, RegVal.pre (mkPre d))))
          "epochlist" (RegVal.epochs (get_epochs (dest_tifs.map mkPre))))
          "gt" (RegVal.gtv gt)) "md" (RegVal.mdv md)) "wkt"
          (RegVal.wktv wkt) := by
    simp only [create_ifg_dict]
    rw [hjoined, hpres]
  have hfreshbase : ∀ s : String, s ∉ dest_tifs →
      ∀ kv ∈ dest_tifs.map (fun d => (d, RegVal.pre (mkPre d))),
        kv.1 ≠ s := by
    intro s hs' kv hkv
    obtain ⟨d, hd, rfl⟩ := List.mem_map.mp hkv
    intro heq
    exact hs' (heq ▸ hd)
  have hmem4 : ∀ s : String, s ∈ (["epochlist", "gt", "md", "wkt"]
      : List String) → s ∉ dest_tifs :=
    fun s hsl hmem => hglob s hmem hsl
  have hfreshsfx : ∀ (l sfx : List (String × RegVal)) (s : String),
      (∀ kv ∈ l, kv.1 ≠ s) → (∀ kv ∈ sfx, kv.1 ≠ s) →
      ∀ kv ∈ l ++ sfx, kv.1 ≠ s := by
    intro l sfx s h1 h2 kv hkv
    rcases List.mem_append.mp hkv with hm | hm
    · exact h1 kv hm
    · exact h2 kv hm
  have happ : create_ifg_dict rank dest_tifs size mkPre gt md wkt
      = (dest_tifs.map (fun d => (d, RegVal.pre (mkPre d))))
        ++ [("epochlist", RegVal.epochs (get_epochs (dest_tifs.map mkPre))),
            ("gt", RegVal.gtv gt), ("md", RegVal.mdv md),
            ("wkt", RegVal.wktv wkt)] := by
    rw [hreg]
    rw [dictInsert_fresh _ "epochlist" _
      (hfreshbase _ (hmem4 _ (by decide)))]
    rw [dictInsert_fresh _ "gt" _
      (hfreshsfx _ _ _ (hfreshbase _ (hmem4 _ (by decide)))
        (by intro kv hkv; rw [List.mem_singleton.mp hkv]
            exact (by decide : ("epochlist" : String) ≠ "gt")))]
    rw [dictInsert_fresh _ "md" _
      (hfreshsfx _ _ _
        (hfreshsfx _ _ _ (hfreshbase _ (hmem4 _ (by decide)))
          (by intro kv hkv; rw [List.mem_singleton.mp hkv]
              exact (by decide : ("epochlist" : String) ≠ "md")))
        (by intro kv hkv; rw [List.mem_singleton.mp hkv]
            exact (by decide : ("gt" : String) ≠ "md")))]
    rw [dictInsert_fresh _ "wkt" _
      (hfreshsfx _ _ _
        (hfreshsfx _ _ _
          (hfreshsfx _ _ _ (hfreshbase _ (hmem4 _ (by decide)))
            (by intro kv hkv; rw [List.mem_singleton.mp hkv]
                exact (by decide : ("epochlist" : String) ≠ "wkt")))
          (by intro kv hkv; rw [List.mem_singleton.mp hkv]
              exact (by decide : ("gt" : String) ≠ "wkt")))
        (by intro kv hkv; rw [List.mem_singleton.mp hkv]
            exact (by decide : ("md" : String) ≠ "wkt")))]
    simp [List.append_assoc]
  refine ⟨rfl, ?_, ?_, ?_, ?_, ?_, ?_⟩
  · rw [happ, List.map_append, hbase_keys]
    rfl
  · intro p hp
    rw [hreg,
      dictLookup_insert_ne _ _ _ _
        (fun (heq : p = "wkt") => hmem4 "wkt" (by decide) (heq ▸ hp)),
      dictLookup_insert_ne _ _ _ _
        (fun (heq : p = "md") => hmem4 "md" (by decide) (heq ▸ hp)),
      dictLookup_insert_ne _ _ _ _
        (fun (heq : p = "gt") => hmem4 "gt" (by decide) (heq ▸ hp)),
      dictLookup_insert_ne _ _ _ _
        (fun (heq : p = "epochlist") =>
          hmem4 "epochlist" (by decide) (heq ▸ hp))]
    exact dictLookup_map_self dest_tifs (fun d => RegVal.pre (mkPre d)) p hp
  · rw [hreg, dictLookup_insert_ne _ _ _ _ (by decide),
      dictLookup_insert_ne _ _ _ _ (by decide),
      dictLookup_insert_ne _ _ _ _ (by decide), dictLookup_insert_self]
  · rw [hreg, dictLookup_insert_ne _ _ _ _ (by decide),
      dictLookup_insert_ne _ _ _ _ (by decide), dictLookup_insert_self]
  · rw [hreg, dictLookup_insert_ne _ _ _ _ (by decide),
      dictLookup_insert_self]
  · rw [hreg, dictLookup_insert_self]

/-- C7 witness: the amended statement on two paths split over two workers,
the per-path clause instantiated at path "a". -/
theorem create_ifg_dict_registry_witness :
    create_ifg_dict 0 ["a", "b"] 2 (fun _ => mkIfg 1 2) [] [("k", "v")] "W"
      = create_ifg_dict 1 ["a", "b"] 2 (fun _ => mkIfg 1 2) [] [("k", "v")] "W"
    ∧ (create_ifg_dict 0 ["a", "b"] 2 (fun _ => mkIfg 1 2) [] [("k", "v")]
        "W").map Prod.fst = ["a", "b"] ++ ["epochlist", "gt", "md", "wkt"]
    ∧ dictLookup (create_ifg_dict 0 ["a", "b"] 2 (fun _ => mkIfg 1 2) []
        [("k", "v")] "W") "a" = some (RegVal.pre (mkIfg 1 2))
    ∧ dictLookup (create_ifg_dict 0 ["a", "b"] 2 (fun _ => mkIfg 1 2) []
        [("k", "v")] "W") "epochlist"
        = some (RegVal.epochs (get_epochs (["a", "b"].map
            (fun _ => mkIfg 1 2))))
    ∧ dictLookup (create_ifg_dict 0 ["a", "b"] 2 (fun _ => mkIfg 1 2) []
        [("k", "v")] "W") "gt" = some (RegVal.gtv [])
    ∧ dictLookup (create_ifg_dict 0 ["a", "b"] 2 (fun _ => mkIfg 1 2) []
        [("k", "v")] "W") "md" = some (RegVal.mdv [("k", "v")])
    ∧ dictLookup (create_ifg_dict 0 ["a", "b"] 2 (fun _ => mkIfg 1 2) []
        [("k", "v")] "W") "wkt" = some (RegVal.wktv "W") := by
  obtain ⟨t1, t2, t3, t4, t5, t6, t7⟩ :=
    create_ifg_dict_registry 0 1 ["a", "b"] 2 (fun _ => mkIfg 1 2) []
      [("k", "v")] "W" (by decide) (by decide) (by decide)
  exact ⟨t1, t2, t3 "a" (by decide), t4, t5, t6, t7⟩

/-- C7 counterexample: on a one-path run the registry's key list holds
FOUR global keys — `epochlist`, `gt`, `md`, `wkt` — so the key `md`
(projection metadata) exists even though it is neither an interferogram
path nor one of the three global keys the claim enumerates. -/
theorem create_ifg_dict_three_keys_counterexample :
    (create_ifg_dict 0 ["a"] 1 (fun _ => mkIfg 1 2) [] [] "W").map Prod.fst
      = ["a", "epochlist", "gt", "md", "wkt"]
    ∧ dictLookup (create_ifg_dict 0 ["a"] 1 (fun _ => mkIfg 1 2) [] [] "W")
        "md" = some (RegVal.mdv [])
    ∧ "md" ∉ (["a", "epochlist", "gt", "wkt"] : List String) := by decide

end PyRate
